import Mathlib

/-!
Verification of the `see` log viewer (src/main.go).

Bytes are modelled as `Nat` (the line terminator is byte 10), a file as the
list of its bytes, lines as lists of bytes, and the compiled filter as an
abstract predicate `P : List Nat → Bool` (the source tests
`rx == nil || rx.MatchString(line)`; we abstract the whole disjunction).
Recursive loops from the source are written with an explicit fuel argument
equal to an upper bound on the number of iterations, so that every
definition stays structurally recursive and kernel-computable.
-/

set_option maxHeartbeats 1000000

namespace See

/-- The follow state of the tail engine: the byte offset consumed so far and
the carry buffer holding an unterminated trailing fragment
(src/main.go lines 426, 509-510). -/
structure FollowState where
  offset : Nat
  carry : List Nat
  deriving DecidableEq, Repr

/-- The inner scan of `readNew`: index of the first newline byte in the carry,
modelling the manual `for i := 0; i < len(carry); i++` search
(src/main.go lines 547-553). -/
def findNL : List Nat → Option Nat
  | [] => none
  | b :: rest => if b = 10 then some 0 else (findNL rest).map (fun k => k + 1)

/-- Helper (proof infrastructure, not a source translation): structural
splitter of a byte buffer into its complete lines and the trailing
unterminated fragment. -/
def splitCarry : List Nat → List (List Nat) × List Nat
  | [] => ([], [])
  | b :: rest =>
    if b = 10 then
      ([] :: (splitCarry rest).1, (splitCarry rest).2)
    else
      match (splitCarry rest).1 with
      | [] => ([], b :: (splitCarry rest).2)
      | l :: ls => ((b :: l) :: ls, (splitCarry rest).2)

/-- The line-extraction loop of `readNew` (src/main.go lines 546-562):
repeatedly find the first newline in the carry, emit the prefix when the
filter matches, and keep the remainder.  `fuel` bounds the number of
iterations; `carry.length` always suffices. -/
def lineLoopF (P : List Nat → Bool) : Nat → List Nat → List (List Nat) × List Nat
  | 0, carry => ([], carry)
  | fuel + 1, carry =>
    match findNL carry with
    | none => ([], carry)
    | some nl =>
      let line := carry.take nl
      let rest := carry.drop (nl + 1)
      let r := lineLoopF P fuel rest
      (if P line then line :: r.1 else r.1, r.2)

/-- The line-extraction loop at its natural fuel. -/
def lineLoop (P : List Nat → Bool) (carry : List Nat) : List (List Nat) × List Nat :=
  lineLoopF P carry.length carry

/-- The chunked read loop of `readNew` (src/main.go lines 534-568) on the
success path: read the pending byte range in chunks of 64 KiB, append each
chunk to the carry and extract complete lines.  `fuel` bounds the number of
chunk reads; `pending.length` always suffices. -/
def chunkLoopF (P : List Nat → Bool) : Nat → List Nat → List Nat → List (List Nat) × List Nat
  | 0, _, carry => ([], carry)
  | fuel + 1, pending, carry =>
    if pending.isEmpty then ([], carry)
    else
      let r1 := lineLoop P (carry ++ pending.take 65536)
      let r2 := chunkLoopF P fuel (pending.drop 65536) r1.2
      (r1.1 ++ r2.1, r2.2)

/-- One drain step of the follow engine, `readNew` in src/main.go
(lines 512-570), on the path where every positional read succeeds:
stat the file, reset on truncation (`cur < offset`), no-op when
`cur == offset`, otherwise read `[offset, cur)` in chunks, extract and emit
matching lines, and set `offset = cur`. -/
def readNew (P : List Nat → Bool) (file : List Nat) (st : FollowState) :
    List (List Nat) × FollowState :=
  let cur := file.length
  let off0 := if cur < st.offset then 0 else st.offset
  let c0 := if cur < st.offset then [] else st.carry
  if cur = off0 then ([], ⟨off0, c0⟩)
  else
    let pending := file.drop off0
    let r := chunkLoopF P pending.length pending c0
    (r.1, ⟨cur, r.2⟩)

/-- A sequence of drain steps: each chunk in the list is appended to the file
and one `readNew` drain runs after each append.  Returns the concatenation of
everything emitted and the final follow state. -/
def drainSeq (P : List Nat → Bool) :
    List Nat → List (List Nat) → FollowState → List (List Nat) × FollowState
  | _, [], st => ([], st)
  | base, chunk :: rest, st =>
    let r1 := readNew P (base ++ chunk) st
    let r2 := drainSeq P (base ++ chunk) rest r1.2
    (r1.1 ++ r2.1, r2.2)

/-! ### Basic lemmas about the line splitter -/

theorem findNL_none {c : List Nat} (h : findNL c = none) : (10 : Nat) ∉ c := by
  induction c with
  | nil => simp
  | cons b rest ih =>
    by_cases hb : b = 10
    · simp [findNL, hb] at h
    · rcases hm : findNL rest with _ | k
      · intro hx
        rcases List.mem_cons.mp hx with h1 | h1
        · exact hb h1.symm
        · exact ih hm h1
      · simp [findNL, hb, hm] at h

theorem findNL_some {c : List Nat} {nl : Nat} (h : findNL c = some nl) :
    (10 : Nat) ∉ c.take nl ∧ c = c.take nl ++ 10 :: c.drop (nl + 1) := by
  induction c generalizing nl with
  | nil => simp [findNL] at h
  | cons b rest ih =>
    by_cases hb : b = 10
    · simp only [findNL, hb, if_true] at h
      cases h
      subst hb
      simp
    · simp only [findNL, hb, if_false, Option.map_eq_some'] at h
      obtain ⟨k, hk, rfl⟩ := h
      obtain ⟨h1, h2⟩ := ih hk
      refine ⟨?_, ?_⟩
      · simp only [List.take, List.mem_cons]
        intro hx
        rcases hx with h3 | h3
        · exact hb h3.symm
        · exact h1 h3
      · simpa [List.take, List.drop] using h2

theorem splitCarry_no_nl {c : List Nat} (h : (10 : Nat) ∉ c) : splitCarry c = ([], c) := by
  induction c with
  | nil => simp [splitCarry]
  | cons b rest ih =>
    have hb : ¬(b = 10) := fun hb => h (by simp [hb])
    have hr : (10 : Nat) ∉ rest := fun hx => h (by simp [hx])
    simp [splitCarry, hb, ih hr]

theorem splitCarry_carry_no_nl (c : List Nat) : (10 : Nat) ∉ (splitCarry c).2 := by
  induction c with
  | nil => simp [splitCarry]
  | cons b rest ih =>
    by_cases hb : b = 10
    · simpa [splitCarry, hb] using ih
    · rcases hm : (splitCarry rest).1 with _ | ⟨l, ls⟩
      · simp only [splitCarry, hb, if_false, hm]
        intro hx
        rcases List.mem_cons.mp hx with h1 | h1
        · exact hb h1.symm
        · exact ih h1
      · simpa [splitCarry, hb, hm] using ih

theorem splitCarry_line (a b : List Nat) (h : (10 : Nat) ∉ a) :
    splitCarry (a ++ 10 :: b) = (a :: (splitCarry b).1, (splitCarry b).2) := by
  induction a with
  | nil => simp [splitCarry]
  | cons x a2 ih =>
    have hx : ¬(x = 10) := fun hx => h (by simp [hx])
    have ha2 : (10 : Nat) ∉ a2 := fun hm => h (by simp [hm])
    simp [splitCarry, hx, ih ha2]

theorem splitCarry_append (a b : List Nat) :
    splitCarry (a ++ b) =
      ((splitCarry a).1 ++ (splitCarry ((splitCarry a).2 ++ b)).1,
        (splitCarry ((splitCarry a).2 ++ b)).2) := by
  induction a with
  | nil => simp [splitCarry]
  | cons x a2 ih =>
    by_cases hx : x = 10
    · simp [splitCarry, hx, ih]
    · rcases hm : (splitCarry a2).1 with _ | ⟨l, ls⟩
      · have hbase : splitCarry (x :: (a2 ++ b)) = splitCarry ((x :: (splitCarry a2).2) ++ b) := by
          rcases hy : (splitCarry ((splitCarry a2).2 ++ b)).1 with _ | ⟨m, ms⟩
          · simp [splitCarry, hx, ih, hm, hy]
          · simp [splitCarry, hx, ih, hm, hy]
        simp only [List.cons_append, hbase]
        simp [splitCarry, hx, hm]
      · simp [splitCarry, hx, ih, hm]

theorem lineLoopF_spec (P : List Nat → Bool) :
    ∀ fuel c, c.length ≤ fuel →
      lineLoopF P fuel c = ((splitCarry c).1.filter P, (splitCarry c).2) := by
  intro fuel
  induction fuel with
  | zero =>
    intro c hc
    have : c = [] := List.length_eq_zero.mp (Nat.le_zero.mp hc)
    subst this
    simp [lineLoopF, splitCarry]
  | succ fuel ih =>
    intro c hc
    rcases hm : findNL c with _ | nl
    · have hno := findNL_none hm
      simp [lineLoopF, hm, splitCarry_no_nl hno]
    · obtain ⟨hpre, hdec⟩ := findNL_some hm
      have hlen : (c.drop (nl + 1)).length ≤ fuel := by
        have hcne : c ≠ [] := by
          intro h
          subst h
          simp [findNL] at hm
        have : 0 < c.length := List.length_pos.mpr hcne
        simp only [List.length_drop]
        omega
      have hsc : splitCarry c = (c.take nl :: (splitCarry (c.drop (nl + 1))).1,
          (splitCarry (c.drop (nl + 1))).2) := by
        conv_lhs => rw [hdec]
        exact splitCarry_line _ _ hpre
      simp [lineLoopF, hm, ih _ hlen, hsc, List.filter_cons]

theorem lineLoop_spec (P : List Nat → Bool) (c : List Nat) :
    lineLoop P c = ((splitCarry c).1.filter P, (splitCarry c).2) :=
  lineLoopF_spec P c.length c le_rfl

/-! ### The chunked read loop -/

theorem chunkLoopF_spec_no_nl (P : List Nat → Bool) :
    ∀ fuel pending c, pending.length ≤ fuel → (10 : Nat) ∉ c →
      chunkLoopF P fuel pending c =
        ((splitCarry (c ++ pending)).1.filter P, (splitCarry (c ++ pending)).2) := by
  intro fuel
  induction fuel with
  | zero =>
    intro pending c hlen hc
    have : pending = [] := List.length_eq_zero.mp (Nat.le_zero.mp hlen)
    subst this
    simp [chunkLoopF, splitCarry_no_nl hc]
  | succ fuel ih =>
    intro pending c hlen hc
    by_cases hp : pending.isEmpty
    · have : pending = [] := List.isEmpty_iff.mp hp
      subst this
      simp [chunkLoopF, splitCarry_no_nl hc]
    · have hpe : pending ≠ [] := fun h => hp (by simp [h])
      have hlen2 : (pending.drop 65536).length ≤ fuel := by
        have : 0 < pending.length := List.length_pos.mpr hpe
        simp only [List.length_drop]
        omega
      have hnc : (10 : Nat) ∉ (splitCarry (c ++ pending.take 65536)).2 :=
        splitCarry_carry_no_nl _
      have hdecomp : c ++ pending = (c ++ pending.take 65536) ++ pending.drop 65536 := by
        simp [List.append_assoc]
      have hsplit := splitCarry_append (c ++ pending.take 65536) (pending.drop 65536)
      rw [← hdecomp] at hsplit
      simp only [chunkLoopF, hp, if_false, lineLoop_spec, ih _ _ hlen2 hnc, hsplit]
      simp [List.filter_append]

theorem chunkLoopF_spec (P : List Nat → Bool) (fuel : Nat) (pending c : List Nat)
    (hlen : pending.length ≤ fuel) (hpe : pending ≠ []) :
    chunkLoopF P fuel pending c =
      ((splitCarry (c ++ pending)).1.filter P, (splitCarry (c ++ pending)).2) := by
  cases fuel with
  | zero =>
    exact absurd (List.length_eq_zero.mp (Nat.le_zero.mp hlen)) hpe
  | succ fuel =>
    have hp : ¬pending.isEmpty := by simp [hpe]
    have hlen2 : (pending.drop 65536).length ≤ fuel := by
      have : 0 < pending.length := List.length_pos.mpr hpe
      simp only [List.length_drop]
      omega
    have hnc : (10 : Nat) ∉ (splitCarry (c ++ pending.take 65536)).2 :=
      splitCarry_carry_no_nl _
    have hdecomp : c ++ pending = (c ++ pending.take 65536) ++ pending.drop 65536 := by
      simp [List.append_assoc]
    have hsplit := splitCarry_append (c ++ pending.take 65536) (pending.drop 65536)
    rw [← hdecomp] at hsplit
    simp only [chunkLoopF, hp, if_false, lineLoop_spec,
      chunkLoopF_spec_no_nl P fuel _ _ hlen2 hnc, hsplit]
    simp [List.filter_append]

/-! ### Closed forms for one drain step -/

theorem readNew_noop (P : List Nat → Bool) (file : List Nat) (st : FollowState)
    (h : st.offset = file.length) : readNew P file st = ([], st) := by
  have h1 : ¬(file.length < st.offset) := by omega
  simp [readNew, h1, h.symm]

theorem readNew_append (P : List Nat → Bool) (file : List Nat) (off : Nat) (carry : List Nat)
    (h : off < file.length) :
    readNew P file ⟨off, carry⟩ =
      ((splitCarry (carry ++ file.drop off)).1.filter P,
        ⟨file.length, (splitCarry (carry ++ file.drop off)).2⟩) := by
  have h1 : ¬(file.length < off) := by omega
  have h2 : ¬(file.length = off) := by omega
  have hpe : file.drop off ≠ [] := by
    intro hnil
    have := List.drop_eq_nil_iff.mp hnil
    omega
  simp only [readNew, h1, if_false, h2]
  rw [chunkLoopF_spec P _ _ _ le_rfl hpe]

theorem readNew_trunc_reset (P : List Nat → Bool) (file : List Nat) (st : FollowState)
    (h : file.length < st.offset) :
    readNew P file st =
      ((splitCarry file).1.filter P, ⟨file.length, (splitCarry file).2⟩) := by
  by_cases hz : file.length = 0
  · have hfile : file = [] := List.length_eq_zero.mp hz
    subst hfile
    have h0 : 0 < st.offset := by simpa using h
    simp [readNew, h0, splitCarry]
  · have hpe : file ≠ [] := by
      intro hnil
      subst hnil
      simp at hz
    simp only [readNew, h, if_true, hz, if_false]
    rw [chunkLoopF_spec P _ _ _ (by simp) (by simpa using hpe)]
    simp

/-- Claim C5: a drain observing a file size strictly below the stored offset
resets the state and re-reads everything from byte 0 of the new content,
emitting exactly the (filtered) lines of the new content and nothing from
before the truncation. -/
theorem readNew_truncation (P : List Nat → Bool) (file : List Nat) (st : FollowState)
    (h : file.length < st.offset) :
    readNew P file st =
      ((splitCarry file).1.filter P, ⟨file.length, (splitCarry file).2⟩) :=
  readNew_trunc_reset P file st h

/-- Witness for C5 at a concrete truncated file. -/
theorem readNew_truncation_witness :
    ([104, 10] : List Nat).length < (10 : Nat) ∧
      readNew (fun _ => true) [104, 10] ⟨10, [99]⟩ =
        ((splitCarry [104, 10]).1.filter (fun _ => true),
          ⟨([104, 10] : List Nat).length, (splitCarry [104, 10]).2⟩) :=
  ⟨by decide, readNew_truncation (fun _ => true) [104, 10] ⟨10, [99]⟩ (by decide)⟩

theorem readNew_offset (P : List Nat → Bool) (file : List Nat) (st : FollowState) :
    (readNew P file st).2.offset = file.length := by
  rcases lt_trichotomy file.length st.offset with h | h | h
  · rw [readNew_trunc_reset P file st h]
  · rw [readNew_noop P file st h.symm]
    exact h.symm
  · obtain ⟨off, carry⟩ := st
    rw [readNew_append P file off carry h]

/-- Claim C4: the drain step is idempotent — running it a second time with no
intervening file change emits nothing and leaves the follow state exactly
where the first run left it. -/
theorem readNew_idempotent (P : List Nat → Bool) (file : List Nat) (st : FollowState) :
    readNew P file (readNew P file st).2 = ([], (readNew P file st).2) :=
  readNew_noop P file _ (readNew_offset P file st)

/-- Claim C6: a drain step re-establishes the follow-state invariant — the
offset ends equal to the observed file size and the carry never contains the
line-terminator byte. -/
theorem readNew_invariant (P : List Nat → Bool) (file : List Nat) (st : FollowState)
    (h : (10 : Nat) ∉ st.carry) :
    (readNew P file st).2.offset = file.length ∧
      (10 : Nat) ∉ (readNew P file st).2.carry := by
  refine ⟨readNew_offset P file st, ?_⟩
  rcases lt_trichotomy file.length st.offset with hc | hc | hc
  · rw [readNew_trunc_reset P file st hc]
    exact splitCarry_carry_no_nl file
  · rw [readNew_noop P file st hc.symm]
    exact h
  · obtain ⟨off, carry⟩ := st
    rw [readNew_append P file off carry hc]
    exact splitCarry_carry_no_nl _

/-- Witness for C6 at a concrete state and file. -/
theorem readNew_invariant_witness :
    (10 : Nat) ∉ ([] : List Nat) ∧
      ((readNew (fun _ => true) [104, 105, 10, 120] ⟨0, []⟩).2.offset =
          ([104, 105, 10, 120] : List Nat).length ∧
        (10 : Nat) ∉ (readNew (fun _ => true) [104, 105, 10, 120] ⟨0, []⟩).2.carry) :=
  ⟨by decide, readNew_invariant (fun _ => true) [104, 105, 10, 120] ⟨0, []⟩ (by decide)⟩

/-- Claim C1: splitting a fixed sequence of appended bytes into arbitrary
chunks fed to successive drains emits exactly the same line sequence (and
reaches the same final state) as consuming all the bytes in one single
drain; in particular a trailing unterminated fragment is never emitted early
and no line is duplicated, dropped or split by a chunk boundary. -/
theorem drainSeq_eq_single_drain (P : List Nat → Bool) (base : List Nat)
    (chunks : List (List Nat)) (carry : List Nat) :
    drainSeq P base chunks ⟨base.length, carry⟩ =
      readNew P (base ++ chunks.flatten) ⟨base.length, carry⟩ := by
  induction chunks generalizing base carry with
  | nil =>
    simp only [drainSeq, List.flatten_nil, List.append_nil]
    exact (readNew_noop P base ⟨base.length, carry⟩ rfl).symm
  | cons chunk rest ih =>
    by_cases hch : chunk = []
    · subst hch
      have hnoop : readNew P base ⟨base.length, carry⟩ = ([], ⟨base.length, carry⟩) :=
        readNew_noop P base ⟨base.length, carry⟩ rfl
      simp only [drainSeq, List.append_nil, hnoop, List.nil_append, List.flatten_cons]
      exact ih base carry
    · have hlt : base.length < (base ++ chunk).length := by
        have : 0 < chunk.length := List.length_pos.mpr hch
        simp only [List.length_append]
        omega
      have hstep := readNew_append P (base ++ chunk) base.length carry hlt
      rw [List.drop_left] at hstep
      simp only [drainSeq, hstep]
      rw [ih (base ++ chunk) (splitCarry (carry ++ chunk)).2]
      by_cases hj : rest.flatten = []
      · rw [hj, List.append_nil,
          readNew_noop P (base ++ chunk) ⟨(base ++ chunk).length,
            (splitCarry (carry ++ chunk)).2⟩ rfl]
        have hflat : (chunk :: rest).flatten = chunk := by
          simp [List.flatten_cons, hj]
        rw [hflat, hstep]
        simp
      · have hlt2 : (base ++ chunk).length < ((base ++ chunk) ++ rest.flatten).length := by
          have : 0 < rest.flatten.length := List.length_pos.mpr hj
          simp only [List.length_append]
          omega
        rw [readNew_append P ((base ++ chunk) ++ rest.flatten) (base ++ chunk).length
          (splitCarry (carry ++ chunk)).2 hlt2, List.drop_left]
        have hlt3 : base.length < (base ++ (chunk :: rest).flatten).length := by
          have : 0 < chunk.length := List.length_pos.mpr hch
          simp only [List.flatten_cons, List.length_append]
          omega
        rw [readNew_append P (base ++ (chunk :: rest).flatten) base.length carry hlt3]
        rw [List.drop_left]
        have hsp := splitCarry_append (carry ++ chunk) rest.flatten
        have hflat2 : carry ++ (chunk :: rest).flatten = carry ++ chunk ++ rest.flatten := by
          simp [List.flatten_cons, List.append_assoc]
        rw [hflat2, hsp]
        simp [List.filter_append, List.flatten_cons, List.length_append, Nat.add_assoc]

/-! ### The drain step in the presence of read errors (claim C3)

The source's chunk loop (src/main.go lines 538-568) breaks out of the loop
when `ReadAt` reports an error other than end-of-input, and then still
executes `offset = cur` (line 569).  We model the outcome of the k-th
`ReadAt` call of a drain by a schedule `sched : Nat → ReadRes`; a failing
call returns no bytes together with a transient non-EOF error. -/

/-- Outcome of one positional read: full success, or a transient error with
no bytes read. -/
inductive ReadRes where
  | ok : ReadRes
  | fail : ReadRes
  deriving DecidableEq, Repr

/-- The chunked read loop of `readNew` with a read-outcome schedule
(src/main.go lines 538-568): while `start < cur`, read the next chunk at
`start`; on success append it to the carry, extract lines and advance
`start`; on a non-EOF error break out of the loop. -/
def chunkLoopErr (P : List Nat → Bool) (sched : Nat → ReadRes) (file : List Nat) (cur : Nat) :
    Nat → Nat → Nat → List Nat → List (List Nat) × List Nat
  | 0, _, _, carry => ([], carry)
  | fuel + 1, k, start, carry =>
    if start < cur then
      match sched k with
      | ReadRes.fail => ([], carry)
      | ReadRes.ok =>
        let want := if cur - start > 65536 then 65536 else cur - start
        let r1 := lineLoop P (carry ++ (file.drop start).take want)
        let r2 := chunkLoopErr P sched file cur fuel (k + 1) (start + want) r1.2
        (r1.1 ++ r2.1, r2.2)
    else ([], carry)

/-- One drain step (`readNew`, src/main.go lines 512-570) driven by a
read-outcome schedule.  Note line 569: `offset = cur` runs even when the
chunk loop broke out early on a read error. -/
def readNewErr (P : List Nat → Bool) (sched : Nat → ReadRes) (file : List Nat)
    (st : FollowState) : List (List Nat) × FollowState :=
  let cur := file.length
  let off0 := if cur < st.offset then 0 else st.offset
  let c0 := if cur < st.offset then [] else st.carry
  if cur = off0 then ([], ⟨off0, c0⟩)
  else
    let r := chunkLoopErr P sched file cur (cur - off0) 0 off0 c0
    (r.1, ⟨cur, r.2⟩)

/-- Claim C3 evaluated at its failing input: on a 3-byte file holding the
line "hi\n", a drain whose first read fails with a transient non-EOF error
emits nothing yet still advances the offset to 3, so the retry drain on the
next wake-up is a no-op and the line is never emitted — whereas a single
error-free drain from the same state would have emitted the line.  The code
therefore does not re-read from the same offset after an aborted drain. -/
theorem readNewErr_skips_unread_bytes :
    readNewErr (fun _ => true) (fun _ => ReadRes.fail) [104, 105, 10] ⟨0, []⟩ =
        ([], ⟨3, []⟩) ∧
      readNewErr (fun _ => true) (fun _ => ReadRes.ok) [104, 105, 10] ⟨3, []⟩ =
        ([], ⟨3, []⟩) ∧
      readNew (fun _ => true) [104, 105, 10] ⟨0, []⟩ = ([[104, 105]], ⟨3, []⟩) := by
  refine ⟨by decide, by decide, ?_⟩
  decide

/-! ### Last-N selection: printLastNFiltered (claims C2 and C7) -/

/-- One iteration of the scan loop of `printLastNFiltered`
(src/main.go lines 387-396): a matching line is written at the write cursor,
the cursor advances modulo `n`, and the count of retained entries grows up
to `n`.  The state is `(ring, size, idx)`. -/
def lastNStep (P : List Nat → Bool) (n : Nat) (st : List (List Nat) × Nat × Nat)
    (s : List Nat) : List (List Nat) × Nat × Nat :=
  if P s then
    (st.1.set st.2.2 s, (if st.2.1 < n then st.2.1 + 1 else st.2.1), (st.2.2 + 1) % n)
  else st

/-- `printLastNFiltered` (src/main.go lines 373-409) applied to the lines of
the file: scan every line, write matches into a capacity-`n` ring, then emit
from the oldest retained entry (start index 0 when the ring is not full, the
write cursor when it is) and return the number of retained entries. -/
def printLastNFiltered (P : List Nat → Bool) (lines : List (List Nat)) (n : Nat) :
    List (List Nat) × Nat :=
  let st := lines.foldl (lastNStep P n) (List.replicate n [], 0, 0)
  let start := if st.2.1 = n then st.2.2 else 0
  ((List.range st.2.1).map (fun i => st.1.getD ((start + i) % n) []), st.2.1)

theorem lastNStep_eq (P : List Nat → Bool) (n : Nat) (st : List (List Nat) × Nat × Nat)
    (s : List Nat) :
    lastNStep P n st s = if P s then lastNStep (fun _ => true) n st s else st := by
  by_cases hp : P s = true <;> simp [lastNStep, hp]

theorem foldl_lastNStep_filter (P : List Nat → Bool) (n : Nat) (lines : List (List Nat)) :
    ∀ st, lines.foldl (lastNStep P n) st =
      (lines.filter P).foldl (lastNStep (fun _ => true) n) st := by
  induction lines with
  | nil => intro st; simp
  | cons a rest ih =>
    intro st
    rw [List.foldl_cons, ih, lastNStep_eq, List.filter_cons]
    by_cases hp : P a = true
    · rw [if_pos hp, if_pos hp, List.foldl_cons]
    · rw [if_neg hp, if_neg hp]

/-- The ring fold over a list of already-matching lines. -/
def ringFold (n : Nat) (M : List (List Nat)) : List (List Nat) × Nat × Nat :=
  M.foldl (lastNStep (fun _ => true) n) (List.replicate n [], 0, 0)

theorem ringFold_concat_ring (n : Nat) (M : List (List Nat)) (a : List Nat) :
    (ringFold n (M ++ [a])).1 = (ringFold n M).1.set (ringFold n M).2.2 a := by
  simp [ringFold, List.foldl_concat, lastNStep]

theorem ringFold_concat_size (n : Nat) (M : List (List Nat)) (a : List Nat) :
    (ringFold n (M ++ [a])).2.1 =
      if (ringFold n M).2.1 < n then (ringFold n M).2.1 + 1 else (ringFold n M).2.1 := by
  simp [ringFold, List.foldl_concat, lastNStep]

theorem ringFold_concat_idx (n : Nat) (M : List (List Nat)) (a : List Nat) :
    (ringFold n (M ++ [a])).2.2 = ((ringFold n M).2.2 + 1) % n := by
  simp [ringFold, List.foldl_concat, lastNStep]

theorem ringFold_len (n : Nat) (M : List (List Nat)) : (ringFold n M).1.length = n := by
  induction M using List.reverseRecOn with
  | nil => simp [ringFold]
  | append_singleton M a ih => simp [ringFold_concat_ring, ih]

theorem ringFold_size (n : Nat) (M : List (List Nat)) : (ringFold n M).2.1 = min M.length n := by
  induction M using List.reverseRecOn with
  | nil => simp [ringFold]
  | append_singleton M a ih =>
    rw [ringFold_concat_size, ih]
    simp only [List.length_append, List.length_cons, List.length_nil]
    split <;> omega

theorem ringFold_idx (n : Nat) (M : List (List Nat)) : (ringFold n M).2.2 = M.length % n := by
  induction M using List.reverseRecOn with
  | nil => simp [ringFold]
  | append_singleton M a ih =>
    rw [ringFold_concat_idx, ih, Nat.mod_add_mod]
    simp

theorem getD_set_self (l : List (List Nat)) (i : Nat) (a : List Nat) (h : i < l.length) :
    (l.set i a).getD i [] = a := by
  rw [List.getD_eq_getElem _ _ (by simpa using h)]
  simp

theorem getD_set_ne (l : List (List Nat)) (i j : Nat) (a : List Nat) (h : i ≠ j) :
    (l.set i a).getD j [] = l.getD j [] := by
  simp [List.getD_eq_getElem?_getD, List.getElem?_set_ne h]

theorem mod_ne_of_shift {L d n : Nat} (hn : 0 < n) (hd1 : 1 ≤ d) (hd2 : d < n) :
    (L + d) % n ≠ L % n := by
  intro h
  rw [← Nat.mod_add_mod] at h
  have hq : L % n < n := Nat.mod_lt _ hn
  rcases Nat.lt_or_ge (L % n + d) n with hlt | hge
  · rw [Nat.mod_eq_of_lt hlt] at h
    omega
  · rw [Nat.mod_eq_sub_mod hge, Nat.mod_eq_of_lt (by omega)] at h
    omega

/-- Pointwise description of the ring after absorbing `M`: the cell holding
the j-th newest entry holds exactly the j-th line from the end of `M`. -/
theorem ringFold_read (n : Nat) (hn : 0 < n) (M : List (List Nat)) :
    ∀ j, j < min M.length n →
      (ringFold n M).1.getD ((M.length + n - 1 - j) % n) [] =
        M.getD (M.length - 1 - j) [] := by
  induction M using List.reverseRecOn with
  | nil =>
    intro j hj
    simp at hj
  | append_singleton M a ih =>
    intro j hj
    have hlen : (M ++ [a]).length = M.length + 1 := by simp
    rw [ringFold_concat_ring]
    cases j with
    | zero =>
      have hidx : ((M ++ [a]).length + n - 1 - 0) % n = M.length % n := by
        rw [hlen]
        have : M.length + 1 + n - 1 - 0 = M.length + n := by omega
        rw [this, Nat.add_mod_right]
      rw [hidx, ← ringFold_idx n M]
      rw [getD_set_self _ _ _ (by rw [ringFold_len, ringFold_idx]; exact Nat.mod_lt _ hn)]
      rw [hlen]
      have : M.length + 1 - 1 - 0 = M.length := by omega
      rw [this, List.getD_append_right M [a] [] M.length le_rfl]
      simp
    | succ j =>
      have hj2 : j + 1 < n ∧ j + 1 < M.length + 1 := by
        rw [hlen] at hj
        exact ⟨lt_of_lt_of_le hj (min_le_right _ _),
          lt_of_lt_of_le hj (min_le_left _ _)⟩
      have hjM : j < min M.length n := lt_min_iff.mpr ⟨by omega, by omega⟩
      have hidx : ((M ++ [a]).length + n - 1 - (j + 1)) % n =
          (M.length + (n - 1 - j)) % n := by
        rw [hlen]
        have : M.length + 1 + n - 1 - (j + 1) = M.length + (n - 1 - j) := by omega
        rw [this]
      rw [hidx]
      have hne : (M.length + (n - 1 - j)) % n ≠ (ringFold n M).2.2 := by
        rw [ringFold_idx]
        exact mod_ne_of_shift hn (by omega) (by omega)
      rw [getD_set_ne _ _ _ _ (Ne.symm hne)]
      have hrd := ih j hjM
      have hidx2 : M.length + n - 1 - j = M.length + (n - 1 - j) := by omega
      rw [hidx2] at hrd
      rw [hrd, hlen]
      have hL : 0 < M.length := by omega
      have : M.length + 1 - 1 - (j + 1) = M.length - 1 - j := by omega
      rw [this, List.getD_append M [a] [] _ (by omega)]

/-- The emitted list of the ring equals the last `min |M| n` elements of `M`
in original order. -/
theorem ringFold_out (n : Nat) (hn : 0 < n) (M : List (List Nat)) :
    (List.range (min M.length n)).map
        (fun i => (ringFold n M).1.getD
          (((if min M.length n = n then M.length % n else 0) + i) % n) []) =
      M.drop (M.length - n) := by
  apply List.ext_getElem
  · simp only [List.length_map, List.length_range, List.length_drop]
    omega
  · intro i h1 h2
    simp only [List.getElem_map, List.getElem_range, List.getElem_drop]
    have hi : i < min M.length n := by
      simpa using h1
    have hkey := ringFold_read n hn M (min M.length n - 1 - i)
      (by omega)
    have hidxeq : ((if min M.length n = n then M.length % n else 0) + i) % n =
        (M.length + n - 1 - (min M.length n - 1 - i)) % n := by
      by_cases hc : min M.length n = n
      · rw [if_pos hc, Nat.mod_add_mod]
        have hnle : n ≤ M.length := by omega
        have : M.length + n - 1 - (min M.length n - 1 - i) = M.length + i := by omega
        rw [this]
      · rw [if_neg hc]
        have hlt : M.length < n := by omega
        have hmin : min M.length n = M.length := by omega
        have : M.length + n - 1 - (min M.length n - 1 - i) = n + i := by omega
        rw [this, Nat.zero_add, Nat.add_mod_left, Nat.mod_eq_of_lt (by omega)]
    rw [hidxeq, hkey]
    have hgd : M.length - 1 - (min M.length n - 1 - i) = M.length - n + i := by omega
    rw [hgd, List.getD_eq_getElem M [] (by omega)]

/-- Closed form of `printLastNFiltered`: it emits exactly the last
`min (number of matches) n` matching lines in original order and returns
that same minimum as its count. -/
theorem printLastN_spec (P : List Nat → Bool) (lines : List (List Nat)) (n : Nat)
    (hn : 1 ≤ n) :
    printLastNFiltered P lines n =
      ((lines.filter P).drop ((lines.filter P).length - n),
        min (lines.filter P).length n) := by
  have hout := ringFold_out n hn (lines.filter P)
  unfold printLastNFiltered
  rw [foldl_lastNStep_filter]
  show ((List.range (ringFold n (lines.filter P)).2.1).map
      (fun i => (ringFold n (lines.filter P)).1.getD
        (((if (ringFold n (lines.filter P)).2.1 = n then (ringFold n (lines.filter P)).2.2
            else 0) + i) % n) []),
      (ringFold n (lines.filter P)).2.1) =
    ((lines.filter P).drop ((lines.filter P).length - n), min (lines.filter P).length n)
  rw [ringFold_size, ringFold_idx, hout]

/-- Claim C2 counterexample: on a 5-line file where exactly lines 2 and 4
match, `lastN(1)` emits exactly line 4 but returns a count of 1, not the
true total number 2 of matching lines seen — the function returns the
number of retained entries `size`, which is capped at `n`. -/
theorem printLastN_count_counterexample :
    (([[1], [2], [3], [4], [5]] : List (List Nat)).filter
        (fun s => s == [2] || s == [4])).length = 2 ∧
      printLastNFiltered (fun s => s == [2] || s == [4]) [[1], [2], [3], [4], [5]] 1 =
        ([[4]], 1) ∧
      (printLastNFiltered (fun s => s == [2] || s == [4]) [[1], [2], [3], [4], [5]] 1).2 ≠ 2 := by
  refine ⟨by decide, by decide, by decide⟩

/-- Claim C2 (amended): for every file, filter and n ≥ 1, the last-N
selection scans every line, retains matches in a capacity-n circular
buffer, emits the `min(total matches, n)` most recent matching lines in
original relative order, and returns as its count the number of retained
(and emitted) lines, `min(total matches, n)` — not the total number of
matches, which is not surfaced.  In the concrete `lastN(1)` scenario it
emits exactly line 4 and reports a count of 1 while 2 lines matched. -/
theorem printLastN_emits_lastN (P : List Nat → Bool) (lines : List (List Nat)) (n : Nat)
    (hn : 1 ≤ n) :
    printLastNFiltered P lines n =
      ((lines.filter P).drop ((lines.filter P).length - n),
        min (lines.filter P).length n) :=
  printLastN_spec P lines n hn

/-- Witness for the amended C2 at the 5-line scenario. -/
theorem printLastN_emits_lastN_witness :
    (1 : Nat) ≤ 1 ∧
      printLastNFiltered (fun s => s == [2] || s == [4]) [[1], [2], [3], [4], [5]] 1 =
        ((([[1], [2], [3], [4], [5]] : List (List Nat)).filter
            (fun s => s == [2] || s == [4])).drop
          ((([[1], [2], [3], [4], [5]] : List (List Nat)).filter
            (fun s => s == [2] || s == [4])).length - 1),
          min (([[1], [2], [3], [4], [5]] : List (List Nat)).filter
            (fun s => s == [2] || s == [4])).length 1) :=
  ⟨le_rfl, printLastN_emits_lastN (fun s => s == [2] || s == [4])
    [[1], [2], [3], [4], [5]] 1 le_rfl⟩

/-- Claim C7: for every input sequence of matching lines and capacity n ≥ 1,
reading the ring from the oldest retained entry (start 0 when not full, the
write cursor when full) to the newest yields exactly the last
`min(matches, n)` lines of the input in original relative order, no matter
how often the buffer wrapped around. -/
theorem ring_iteration_order (M : List (List Nat)) (n : Nat) (hn : 1 ≤ n) :
    printLastNFiltered (fun _ => true) M n =
      (M.drop (M.length - n), min M.length n) := by
  have h := printLastN_spec (fun _ => true) M n hn
  simpa using h

/-- Witness for C7 with a wrapped buffer: capacity 2, five entries. -/
theorem ring_iteration_order_witness :
    (1 : Nat) ≤ 2 ∧
      printLastNFiltered (fun _ => true) [[1], [2], [3], [4], [5]] 2 =
        (([[1], [2], [3], [4], [5]] : List (List Nat)).drop
            (([[1], [2], [3], [4], [5]] : List (List Nat)).length - 2),
          min ([[1], [2], [3], [4], [5]] : List (List Nat)).length 2) :=
  ⟨by omega, ring_iteration_order [[1], [2], [3], [4], [5]] 2 (by omega)⟩

/-! ### Rendering (claims C8 and C9)

Text is modelled as `List Char`.  The precompiled regular expressions of
src/main.go (lines 214-224) are small enough to implement directly as
matchers with Go's leftmost-first semantics; `ReplaceAllStringFunc` becomes
a left-to-right scanner that wraps each match and continues after it. -/

def escChar : Char := Char.ofNat 27

def dquoteChar : Char := Char.ofNat 34

def quoteChar : Char := Char.ofNat 39

def backslashChar : Char := Char.ofNat 92

def lbraceChar : Char := Char.ofNat 123

def rbraceChar : Char := Char.ofNat 125

def ansiReset : List Char := [escChar, '[', '0', 'm']

def ansiDim : List Char := [escChar, '[', '2', 'm']

def ansiBold : List Char := [escChar, '[', '1', 'm']

def ansiRed : List Char := [escChar, '[', '3', '1', 'm']

def ansiGreen : List Char := [escChar, '[', '3', '2', 'm']

def ansiYellow : List Char := [escChar, '[', '3', '3', 'm']

def ansiBlue : List Char := [escChar, '[', '3', '4', 'm']

def ansiMagenta : List Char := [escChar, '[', '3', '5', 'm']

def ansiCyan : List Char := [escChar, '[', '3', '6', 'm']

/-- Go regexp word character (`\w` and the `\b` test): ASCII letter, digit
or underscore. -/
def isWordChar (c : Char) : Bool := c.isAlpha || c.isDigit || c == '_'

/-- Go regexp whitespace class `\s`. -/
def isSpaceGo (c : Char) : Bool :=
  c == ' ' || c == Char.ofNat 9 || c == Char.ofNat 10 || c == Char.ofNat 12 ||
    c == Char.ofNat 13

def wordOpt : Option Char → Bool
  | none => false
  | some c => isWordChar c

def countLeading (p : Char → Bool) (s : List Char) : Nat := (s.takeWhile p).length

def charAt (s : List Char) (i : Nat) : Option Char := s[i]?

/-- Word boundary after a match: the character at position `i` is absent or
not a word character. -/
def nonWordAt (s : List Char) (i : Nat) : Bool :=
  match s[i]? with
  | none => true
  | some c => !isWordChar c

def isDigitAt (s : List Char) (i : Nat) : Bool :=
  match s[i]? with
  | none => false
  | some c => c.isDigit

/-- `Regexp.ReplaceAllStringFunc` specialised to the passes of src/main.go:
scan left to right; at each position try the matcher (which sees the
previous character for word-boundary tests); on a match of positive length
wrap the matched text verbatim and continue after it, otherwise copy one
character.  Any `fuel` at least the length of the text suffices. -/
def scanReplF (tm : Option Char → List Char → Option Nat) (wrap : List Char → List Char) :
    Nat → Option Char → List Char → List Char
  | 0, _, s => s
  | _ + 1, _, [] => []
  | fuel + 1, prev, c :: rest =>
    match tm prev (c :: rest) with
    | some (n + 1) =>
      let m := (c :: rest).take (n + 1)
      wrap m ++ scanReplF tm wrap fuel m.getLast? ((c :: rest).drop (n + 1))
    | _ => c :: scanReplF tm wrap fuel (some c) rest

def replaceAll (tm : Option Char → List Char → Option Nat) (wrap : List Char → List Char)
    (s : List Char) : List Char :=
  scanReplF tm wrap s.length none s

/-- Matcher for `reNum` (src/main.go line 220): a maximal digit run with a
word boundary on each side. -/
def tryNum (prev : Option Char) (s : List Char) : Option Nat :=
  if wordOpt prev then none
  else
    let d := countLeading Char.isDigit s
    if d = 0 then none
    else if nonWordAt s d then some d else none

/-- The level vocabulary of `reLvl` (src/main.go line 216) in alternation
order. -/
def lvlWords : List (List Char) :=
  [['d', 'e', 'b', 'u', 'g'], ['i', 'n', 'f', 'o'], ['w', 'a', 'r', 'n'],
   ['w', 'a', 'r', 'n', 'i', 'n', 'g'], ['e', 'r', 'r', 'o', 'r'], ['e', 'r', 'r'],
   ['c', 'r', 'i', 't'], ['f', 'a', 't', 'a', 'l'], ['f', 'a', 'i', 'l']]

def tryWords (s : List Char) : List (List Char) → Option Nat
  | [] => none
  | w :: ws =>
    if ((s.take w.length).map Char.toLower == w) && nonWordAt s w.length then some w.length
    else tryWords s ws

/-- Matcher for `reLvl`: case-insensitive level word with word boundaries,
alternatives tried in the pattern's order. -/
def tryLvl (prev : Option Char) (s : List Char) : Option Nat :=
  if wordOpt prev then none else tryWords s lvlWords

/-- The wrap function of the level pass (src/main.go lines 272-285). -/
def wrapLvl (m : List Char) : List Char :=
  let u := m.map Char.toUpper
  if u = ['D', 'E', 'B', 'U', 'G'] then ansiBlue ++ m ++ ansiReset
  else if u = ['I', 'N', 'F', 'O'] then ansiGreen ++ m ++ ansiReset
  else if u = ['W', 'A', 'R', 'N'] ∨ u = ['W', 'A', 'R', 'N', 'I', 'N', 'G'] then
    ansiYellow ++ m ++ ansiReset
  else if u = ['E', 'R', 'R', 'O', 'R'] ∨ u = ['E', 'R', 'R'] ∨ u = ['C', 'R', 'I', 'T'] ∨
      u = ['F', 'A', 'T', 'A', 'L'] ∨ u = ['F', 'A', 'I', 'L'] then
    ansiRed ++ m ++ ansiReset
  else m

/-- One `\d{1,3}\.` group of `reIP` (src/main.go line 218). -/
def ipGroup (s : List Char) : Option Nat :=
  let d := countLeading Char.isDigit s
  if 1 ≤ d ∧ d ≤ 3 ∧ charAt s d = some '.' then some (d + 1) else none

/-- Matcher for `reIP`: three digit-dot groups, a final digit group, word
boundaries on both sides. -/
def tryIP (prev : Option Char) (s : List Char) : Option Nat :=
  if wordOpt prev then none
  else
    match ipGroup s with
    | none => none
    | some k1 =>
      match ipGroup (s.drop k1) with
      | none => none
      | some k2 =>
        match ipGroup ((s.drop k1).drop k2) with
        | none => none
        | some k3 =>
          let t := ((s.drop k1).drop k2).drop k3
          let d := countLeading Char.isDigit t
          if 1 ≤ d ∧ d ≤ 3 ∧ nonWordAt t d then some (k1 + k2 + k3 + d) else none

/-- Matcher for `reURL` (src/main.go line 217): `\bhttps?://` then a maximal
run of non-whitespace. -/
def tryURL (prev : Option Char) (s : List Char) : Option Nat :=
  if wordOpt prev then none
  else if s.take 4 = ['h', 't', 't', 'p'] then
    let k := if charAt s 4 = some 's' then 5 else 4
    let rest := s.drop k
    if rest.take 3 = [':', '/', '/'] then
      let t := countLeading (fun c => !isSpaceGo c) (rest.drop 3)
      if t = 0 then none else some (k + 3 + t)
    else none
  else none

/-- The character class of `rePath` (src/main.go line 219). -/
def pathClass (c : Char) : Bool :=
  isWordChar c || c == '.' || c == '/' || c == '-' || c == '+' || c == '@' || c == '%' ||
    c == '~'

/-- Matcher for `rePath`: either at the very start (`^`) a slash followed by
path characters, or a whitespace/quote character (included in the match)
then a slash and path characters. -/
def tryPath (prev : Option Char) (s : List Char) : Option Nat :=
  if prev = none ∧ charAt s 0 = some '/' then
    let t := countLeading pathClass (s.drop 1)
    if t = 0 then none else some (1 + t)
  else
    match s with
    | c :: d :: rest =>
      if (isSpaceGo c || c == dquoteChar || c == quoteChar) ∧ d = '/' then
        let t := countLeading pathClass rest
        if t = 0 then none else some (2 + t)
      else none
    | _ => none

def tsSep (c : Char) : Bool := c == 'T' || isSpaceGo c

/-- The tail `(?:\.\d+)?Z?` of the first timestamp alternative of `reTS`
together with the trailing word boundary, in the engine's backtracking
order: the greedy fractional-seconds option first (with, then without, the
optional `Z`); when every extended option fails but a fraction was present,
the boundary right after the seconds holds because the next character is a
dot. -/
def tsClose (s : List Char) (base : Nat) : Option Nat :=
  let fracDigits := countLeading Char.isDigit (s.drop (base + 1))
  if charAt s base = some '.' ∧ 1 ≤ fracDigits then
    let p := base + 1 + fracDigits
    if charAt s p = some 'Z' then
      if nonWordAt s (p + 1) then some (p + 1) else some base
    else if nonWordAt s p then some p else some base
  else if charAt s base = some 'Z' then
    if nonWordAt s (base + 1) then some (base + 1) else none
  else if nonWordAt s base then some base else none

/-- First alternative of `reTS` (src/main.go line 215):
`\d{4}-\d{2}-\d{2}[T\s]\d{2}:\d{2}:\d{2}(?:\.\d+)?Z?`. -/
def tsAlt1 (s : List Char) : Option Nat :=
  if isDigitAt s 0 && isDigitAt s 1 && isDigitAt s 2 && isDigitAt s 3 &&
      (charAt s 4 == some '-') && isDigitAt s 5 && isDigitAt s 6 &&
      (charAt s 7 == some '-') && isDigitAt s 8 && isDigitAt s 9 &&
      (match charAt s 10 with | some c => tsSep c | none => false) &&
      isDigitAt s 11 && isDigitAt s 12 && (charAt s 13 == some ':') &&
      isDigitAt s 14 && isDigitAt s 15 && (charAt s 16 == some ':') &&
      isDigitAt s 17 && isDigitAt s 18 then
    tsClose s 19
  else none

/-- Second alternative of `reTS`: `[A-Z][a-z]{2}\s+\d{1,2}\s+\d{2}:\d{2}:\d{2}`. -/
def tsAlt2 (s : List Char) : Option Nat :=
  match charAt s 0, charAt s 1, charAt s 2 with
  | some c0, some c1, some c2 =>
    if c0.isUpper && c1.isLower && c2.isLower then
      let w1 := countLeading isSpaceGo (s.drop 3)
      if w1 = 0 then none
      else
        let t1 := s.drop (3 + w1)
        let d := countLeading Char.isDigit t1
        if 1 ≤ d ∧ d ≤ 2 then
          let w2 := countLeading isSpaceGo (t1.drop d)
          if w2 = 0 then none
          else
            let t2 := t1.drop (d + w2)
            if isDigitAt t2 0 && isDigitAt t2 1 && (charAt t2 2 == some ':') &&
                isDigitAt t2 3 && isDigitAt t2 4 && (charAt t2 5 == some ':') &&
                isDigitAt t2 6 && isDigitAt t2 7 then
              let total := 3 + w1 + d + w2 + 8
              if nonWordAt s total then some total else none
            else none
        else none
    else none
  | _, _, _ => none

/-- Matcher for `reTS`: leading word boundary, then the two alternatives in
the pattern's order. -/
def tryTS (prev : Option Char) (s : List Char) : Option Nat :=
  if wordOpt prev then none
  else
    match tsAlt1 s with
    | some n => some n
    | none => tsAlt2 s

/-- Body of a quoted JSON string after the opening quote, `([^"\\]|\\.)*"`:
returns the number of characters up to and including the closing quote. -/
def jsonStrBody : List Char → Option Nat
  | [] => none
  | c :: rest =>
    if c = dquoteChar then some 1
    else if c = backslashChar then
      match rest with
      | [] => none
      | _ :: rest2 => (jsonStrBody rest2).map (fun k => k + 2)
    else (jsonStrBody rest).map (fun k => k + 1)

/-- Matcher for `reJSONKey` (src/main.go line 222): a quoted string, optional
whitespace, then a colon. -/
def tryJSONKey (_ : Option Char) (s : List Char) : Option Nat :=
  match s with
  | [] => none
  | c :: rest =>
    if c = dquoteChar then
      match jsonStrBody rest with
      | none => none
      | some k =>
        let after := rest.drop k
        let w := countLeading isSpaceGo after
        if charAt after w = some ':' then some (1 + k + w + 1) else none
    else none

def idxQuote : List Char → Option Nat
  | [] => none
  | c :: rest => if c = dquoteChar then some 0 else (idxQuote rest).map (fun k => k + 1)

def lastIdxQuote (s : List Char) : Option Nat :=
  (idxQuote s.reverse).map (fun k => s.length - 1 - k)

/-- The wrap function of the JSON-key pass (src/main.go lines 235-242):
color the content between the first and the last quote of the match. -/
def wrapJSONKey (m : List Char) : List Char :=
  match idxQuote m, lastIdxQuote m with
  | some i, some j =>
    if j ≤ i then m
    else m.take (i + 1) ++ ansiGreen ++ ((m.drop (i + 1)).take (j - (i + 1))) ++
      ansiReset ++ m.drop j
  | _, _ => m

def yamlKeyChar (c : Char) : Bool :=
  c.isAlpha || c.isDigit || c == '_' || c == '.' || c == '-'

/-- Does `reYAMLKey` (src/main.go line 223) match?  The pattern is anchored,
so only a match at the start is possible. -/
def yamlKeyTest (s : List Char) : Bool :=
  let w := countLeading isSpaceGo s
  let k := countLeading yamlKeyChar (s.drop w)
  let w2 := countLeading isSpaceGo ((s.drop w).drop k)
  1 ≤ k && charAt s (w + k + w2) == some ':'

/-- `reYAMLKey.ReplaceAllString(seg, $1 BLUE $2 RESET ":")` (src/main.go
line 244).  The whitespace matched by the `\s*` between the key and the
colon belongs to no capture group, so the replacement drops it. -/
def yamlKeyReplace (s : List Char) : List Char :=
  let w := countLeading isSpaceGo s
  let k := countLeading yamlKeyChar (s.drop w)
  let w2 := countLeading isSpaceGo ((s.drop w).drop k)
  if 1 ≤ k && charAt s (w + k + w2) == some ':' then
    s.take w ++ ansiBlue ++ ((s.drop w).take k) ++ ansiReset ++ [':'] ++
      s.drop (w + k + w2 + 1)
  else s

/-- `reJSONLine` (src/main.go line 221): optional whitespace then an opening
brace or bracket. -/
def jsonLineTest (s : List Char) : Bool :=
  let w := countLeading isSpaceGo s
  charAt s w == some lbraceChar || charAt s w == some '['

/-- The `strings.NewReplacer` pass dimming structural punctuation
(src/main.go lines 246-253): one left-to-right scan, patterns tried in
argument order, replacements not rescanned. -/
def punctRepl : List Char → List Char
  | [] => []
  | ':' :: ' ' :: rest => ansiDim ++ [':', ' '] ++ ansiReset ++ punctRepl rest
  | c :: rest =>
    if c = lbraceChar then ansiDim ++ [lbraceChar] ++ ansiReset ++ punctRepl rest
    else if c = rbraceChar then ansiDim ++ [rbraceChar] ++ ansiReset ++ punctRepl rest
    else if c = '[' then ansiDim ++ ['['] ++ ansiReset ++ punctRepl rest
    else if c = ']' then ansiDim ++ [']'] ++ ansiReset ++ punctRepl rest
    else if c = ',' then ansiDim ++ [','] ++ ansiReset ++ punctRepl rest
    else c :: punctRepl rest

/-- `colorizeStructured` (src/main.go lines 230-255): the JSON-key pass, then
the anchored YAML-key replacement, then the punctuation dimmer — each
applied to the output of the previous pass. -/
def colorizeStructured (seg : List Char) (enable : Bool) : List Char :=
  if !enable then seg
  else punctRepl (yamlKeyReplace (replaceAll tryJSONKey wrapJSONKey seg))

/-- `colorizeGeneric` (src/main.go lines 258-288): optional structured pass,
then the timestamp, URL, IP, path, level and number passes — each applied to
the output of the previous pass. -/
def colorizeGeneric (seg : List Char) (enable : Bool) : List Char :=
  if !enable then seg
  else
    let s0 := if jsonLineTest seg || yamlKeyTest seg then colorizeStructured seg enable
      else seg
    let s1 := replaceAll tryTS (fun m => ansiDim ++ m ++ ansiReset) s0
    let s2 := replaceAll tryURL (fun m => ansiMagenta ++ m ++ ansiReset) s1
    let s3 := replaceAll tryIP (fun m => ansiCyan ++ m ++ ansiReset) s2
    let s4 := replaceAll tryPath (fun m => ansiMagenta ++ m ++ ansiReset) s3
    let s5 := replaceAll tryLvl wrapLvl s4
    replaceAll tryNum (fun m => ansiBold ++ m ++ ansiReset) s5

/-- The span loop of `renderLine` (src/main.go lines 303-320), carrying the
index `last` of the end of the previous match. -/
def renderCore (raw : List Char) (enable : Bool) : List (Nat × Nat) → Nat → List Char
  | [], last => if last < raw.length then colorizeGeneric (raw.drop last) enable else []
  | sp :: rest, last =>
    (if last < sp.1 then colorizeGeneric ((raw.drop last).take (sp.1 - last)) enable
      else []) ++
      ansiCyan ++ ((raw.drop sp.1).take (sp.2 - sp.1)) ++ ansiReset ++
      renderCore raw enable rest sp.2

/-- `renderLine` (src/main.go lines 292-322).  The compiled regexp is an
external collaborator; it is abstracted by the result of
`filter.FindAllStringIndex(raw, -1)`: `none` models a nil filter, `some
idxs` the span list the regexp engine returns on the raw text. -/
def renderLine (raw : List Char) (spans : Option (List (Nat × Nat))) (enable : Bool) :
    List Char :=
  match spans with
  | none => colorizeGeneric raw enable
  | some idxs =>
    if !enable then colorizeGeneric raw enable
    else if idxs = [] then colorizeGeneric raw enable
    else renderCore raw enable idxs 0

/-- A display piece: a plain (non-match) segment or a filter-match segment. -/
inductive Piece where
  | plain (g : List Char) : Piece
  | matched (m : List Char) : Piece
  deriving DecidableEq, Repr

/-- Modelled from the spec: split a raw line into alternating non-match and
match segments, given the list of match spans. -/
def splitBySpans (raw : List Char) : List (Nat × Nat) → Nat → List Piece
  | [], last => [Piece.plain (raw.drop last)]
  | sp :: rest, last =>
    Piece.plain ((raw.drop last).take (sp.1 - last)) ::
      Piece.matched ((raw.drop sp.1).take (sp.2 - sp.1)) :: splitBySpans raw rest sp.2

/-- Modelled from the spec: generic coloring on non-match segments only, the
distinct match-highlight class wrapped verbatim around match segments. -/
def renderPiece (enable : Bool) : Piece → List Char
  | Piece.plain g => colorizeGeneric g enable
  | Piece.matched m => ansiCyan ++ m ++ ansiReset

/-- Modelled from the spec: the rendered line is the join of the rendered
alternating pieces. -/
def renderLineSpec (raw : List Char) (idxs : List (Nat × Nat)) (enable : Bool) : List Char :=
  ((splitBySpans raw idxs 0).map (renderPiece enable)).flatten

/-- Length of a well-formed ANSI sequence body `[` digits `m` at the head. -/
def ansiSeqLen (s : List Char) : Option Nat :=
  match s with
  | c :: rest =>
    if c = '[' then
      let d := countLeading Char.isDigit rest
      if charAt rest d = some 'm' then some (2 + d) else none
    else none
  | [] => none

def stripAnsiF : Nat → List Char → List Char
  | 0, s => s
  | _ + 1, [] => []
  | fuel + 1, c :: rest =>
    if c = escChar then
      match ansiSeqLen rest with
      | some k => stripAnsiF fuel (rest.drop k)
      | none => c :: stripAnsiF fuel rest
    else c :: stripAnsiF fuel rest

/-- Remove every well-formed ANSI color sequence (ESC `[` digits `m`) — this
is what "removing all inserted highlight markers" means. -/
def stripAnsi (s : List Char) : List Char := stripAnsiF s.length s

/-! ### Claim C8: the filter-match overlay of renderLine -/

theorem colorizeGeneric_nil (e : Bool) : colorizeGeneric [] e = [] := by
  cases e <;> decide

theorem renderCore_eq_spec (raw : List Char) (e : Bool) :
    ∀ idxs last, renderCore raw e idxs last =
      ((splitBySpans raw idxs last).map (renderPiece e)).flatten := by
  intro idxs
  induction idxs with
  | nil =>
    intro last
    by_cases h : last < raw.length
    · simp [renderCore, splitBySpans, renderPiece, h]
    · have hdrop : raw.drop last = [] := by
        rw [List.drop_eq_nil_iff]
        omega
      simp [renderCore, splitBySpans, renderPiece, h, hdrop, colorizeGeneric_nil]
  | cons sp rest ih =>
    intro last
    by_cases h : last < sp.1
    · simp [renderCore, splitBySpans, renderPiece, h, ih, List.append_assoc]
    · have htake : (raw.drop last).take (sp.1 - last) = [] := by
        have hz : sp.1 - last = 0 := by omega
        simp [hz]
      simp [renderCore, splitBySpans, renderPiece, h, ih, htake, colorizeGeneric_nil,
        List.append_assoc]

theorem splitBySpans_matched_mem (raw : List Char) (hesc : escChar ∉ raw) :
    ∀ idxs last m, Piece.matched m ∈ splitBySpans raw idxs last → escChar ∉ m := by
  intro idxs
  induction idxs with
  | nil =>
    intro last m hm
    simp [splitBySpans] at hm
  | cons sp rest ih =>
    intro last m hm
    simp only [splitBySpans, List.mem_cons] at hm
    rcases hm with h | h | h
    · cases h
    · have hm2 : m = (raw.drop sp.1).take (sp.2 - sp.1) := by
        cases h
        rfl
      subst hm2
      intro hx
      have hsub : List.Sublist ((raw.drop sp.1).take (sp.2 - sp.1)) raw :=
        (List.take_sublist _ _).trans (List.drop_sublist _ _)
      exact hesc (hsub.mem hx)
    · exact ih _ _ h

/-- Claim C8: with a compiled filter and color enabled, `renderLine` equals
the spec-side pipeline — the raw line split into alternating
non-match/match segments on the raw text, generic coloring applied only to
the non-match segments, every match span wrapped verbatim (bytes unchanged,
no generic coloring inside) in the single distinct cyan match class; and
when the raw line contains no escape byte neither does any match segment,
so a level keyword lying inside a match span receives exactly the one
match-class wrapper and never a nested or double-applied color code. -/
theorem renderLine_overlay (raw : List Char) (idxs : List (Nat × Nat))
    (hne : idxs ≠ []) (hesc : escChar ∉ raw) :
    renderLine raw (some idxs) true = renderLineSpec raw idxs true ∧
      ∀ m, Piece.matched m ∈ splitBySpans raw idxs 0 → escChar ∉ m := by
  constructor
  · simp only [renderLine, Bool.not_true, Bool.false_eq_true, if_false, hne,
      renderLineSpec]
    exact renderCore_eq_spec raw true idxs 0
  · exact splitBySpans_matched_mem raw hesc idxs 0

/-- Witness for C8: the line "ERROR boom" with the filter match span (0,5)
covering the level keyword ERROR. -/
theorem renderLine_overlay_witness :
    (([((0 : Nat), (5 : Nat))] : List (Nat × Nat)) ≠ []) ∧
      escChar ∉ ['E', 'R', 'R', 'O', 'R', ' ', 'b', 'o', 'o', 'm'] ∧
      (renderLine ['E', 'R', 'R', 'O', 'R', ' ', 'b', 'o', 'o', 'm']
          (some [(0, 5)]) true =
        renderLineSpec ['E', 'R', 'R', 'O', 'R', ' ', 'b', 'o', 'o', 'm'] [(0, 5)] true ∧
      ∀ m, Piece.matched m ∈
          splitBySpans ['E', 'R', 'R', 'O', 'R', ' ', 'b', 'o', 'o', 'm'] [(0, 5)] 0 →
        escChar ∉ m) :=
  ⟨by decide, by decide, renderLine_overlay _ _ (by decide) (by decide)⟩

/-! ### Claim C9: what the sequential generic passes do and do not preserve -/

theorem sublist_wrapPair (pre post m : List Char) :
    List.Sublist m (pre ++ m ++ post) := by
  have h := (List.sublist_append_left m post).trans
    (List.sublist_append_right pre (m ++ post))
  rwa [← List.append_assoc] at h

theorem wrapLvl_sublist (m : List Char) : List.Sublist m (wrapLvl m) := by
  simp only [wrapLvl]
  split_ifs <;> first
    | exact sublist_wrapPair _ _ m
    | exact List.Sublist.refl m

theorem sublist_scanReplF (tm : Option Char → List Char → Option Nat)
    (wrap : List Char → List Char) (hw : ∀ m, List.Sublist m (wrap m)) :
    ∀ fuel prev s, List.Sublist s (scanReplF tm wrap fuel prev s) := by
  intro fuel
  induction fuel with
  | zero =>
    intro prev s
    exact List.Sublist.refl s
  | succ fuel ih =>
    intro prev s
    cases s with
    | nil => simp [scanReplF]
    | cons c rest =>
      rcases htm : tm prev (c :: rest) with _ | n
      · simp only [scanReplF, htm]
        exact (ih (some c) rest).cons₂ c
      · cases n with
        | zero =>
          simp only [scanReplF, htm]
          exact (ih (some c) rest).cons₂ c
        | succ n =>
          simp only [scanReplF, htm]
          have h1 := hw ((c :: rest).take (n + 1))
          have h2 := ih ((c :: rest).take (n + 1)).getLast? ((c :: rest).drop (n + 1))
          have h3 := List.Sublist.append h1 h2
          rw [List.take_append_drop] at h3
          exact h3

theorem sublist_replaceAll (tm : Option Char → List Char → Option Nat)
    (wrap : List Char → List Char) (hw : ∀ m, List.Sublist m (wrap m)) (s : List Char) :
    List.Sublist s (replaceAll tm wrap s) :=
  sublist_scanReplF tm wrap hw s.length none s

/-- Claim C9 counterexample: the passes are applied each to the previous
pass's output, and they do corrupt both markers and text.  On the
YAML-shaped segment "key : value" the structured pass drops the space
before the colon and the punctuation dimmer re-colors the bracket inside
the already-inserted blue marker, so removing the inserted highlight
markers does not recover the segment (even a second removal pass leaves
"key: value", with the space irrecoverably gone); and on "1.2.3.4" the
number pass re-colors digits strictly inside the span already tagged cyan
by the IP pass. -/
theorem colorizeGeneric_corrupts :
    stripAnsi (colorizeGeneric ['k', 'e', 'y', ' ', ':', ' ', 'v', 'a', 'l', 'u', 'e'] true) ≠
        ['k', 'e', 'y', ' ', ':', ' ', 'v', 'a', 'l', 'u', 'e'] ∧
      stripAnsi (stripAnsi
          (colorizeGeneric ['k', 'e', 'y', ' ', ':', ' ', 'v', 'a', 'l', 'u', 'e'] true)) =
        ['k', 'e', 'y', ':', ' ', 'v', 'a', 'l', 'u', 'e'] ∧
      colorizeGeneric ['1', '.', '2', '.', '3', '.', '4'] true =
        ansiCyan ++ ['1', '.'] ++ ansiBold ++ ['2'] ++ ansiReset ++ ['.'] ++ ansiBold ++
          ['3'] ++ ansiReset ++ ['.'] ++ ansiBold ++ ['4'] ++ ansiReset ++ ansiReset := by
  refine ⟨by decide, by decide, by decide⟩

/-- Claim C9 (amended): the generic passes run sequentially, each re-scanning
the output of the previous pass rather than the raw text with markers
composited at the end; a later pass may re-color inside an already-tagged
span, and on segments that take the structured JSON/YAML branch the
original text need not be recoverable by removing the inserted markers.
What does hold: on every segment that does not take the structured branch,
each pass only inserts marker bytes around verbatim matches, so the
original segment text survives in order as a subsequence of the output. -/
theorem colorizeGeneric_preserves_text (seg : List Char)
    (h : (jsonLineTest seg || yamlKeyTest seg) = false) :
    seg.Sublist (colorizeGeneric seg true) := by
  have hw1 : ∀ m : List Char, List.Sublist m (ansiDim ++ m ++ ansiReset) := fun m =>
    sublist_wrapPair _ _ m
  have hw2 : ∀ m : List Char, List.Sublist m (ansiMagenta ++ m ++ ansiReset) := fun m =>
    sublist_wrapPair _ _ m
  have hw3 : ∀ m : List Char, List.Sublist m (ansiCyan ++ m ++ ansiReset) := fun m =>
    sublist_wrapPair _ _ m
  have hw4 : ∀ m : List Char, List.Sublist m (ansiBold ++ m ++ ansiReset) := fun m =>
    sublist_wrapPair _ _ m
  simp only [colorizeGeneric, Bool.not_true, Bool.false_eq_true, if_false, h]
  exact ((((((sublist_replaceAll _ _ hw1 seg).trans
    (sublist_replaceAll _ _ hw2 _)).trans
    (sublist_replaceAll _ _ hw3 _)).trans
    (sublist_replaceAll _ _ hw2 _)).trans
    (sublist_replaceAll _ _ wrapLvl_sublist _)).trans
    (sublist_replaceAll _ _ hw4 _))

/-- Witness for the amended C9 on a non-structured segment. -/
theorem colorizeGeneric_preserves_text_witness :
    ((jsonLineTest ['h', 'e', 'l', 'l', 'o', ' ', '4', '2'] ||
        yamlKeyTest ['h', 'e', 'l', 'l', 'o', ' ', '4', '2']) = false) ∧
      (['h', 'e', 'l', 'l', 'o', ' ', '4', '2'] : List Char).Sublist
        (colorizeGeneric ['h', 'e', 'l', 'l', 'o', ' ', '4', '2'] true) :=
  ⟨by decide, colorizeGeneric_preserves_text _ (by decide)⟩

/-! ### Claim C10: dispatch on the first-N / last-N counts -/

/-- The selection mode chosen by `see` for a given pair of counts. -/
inductive SeeMode where
  | conflict : SeeMode
  | firstN : SeeMode
  | lastN : SeeMode
  | allLines : SeeMode
  deriving DecidableEq, Repr

/-- The dispatch of `see` (src/main.go lines 428-454) on the `-ns`/`-ne`
counts, evaluated in the order of the Go switch; `main` performs the same
`ns > 0 && ne > 0` conflict test before starting (src/main.go lines
172-175). -/
def seeDispatch (ns ne : Int) : SeeMode :=
  if 0 < ns ∧ 0 < ne then SeeMode.conflict
  else if 0 < ns then SeeMode.firstN
  else if 0 < ne then SeeMode.lastN
  else SeeMode.allLines

/-- Claim C10: a zero or negative count behaves as if that selection was not
requested — the conflict error fires only when both counts are strictly
positive, both counts non-positive select the emit-all path, and e.g.
ns = -3 with ne = 5 is accepted and runs last-N selection. -/
theorem seeDispatch_nonpositive (ns ne : Int) :
    (¬(0 < ns ∧ 0 < ne) → seeDispatch ns ne ≠ SeeMode.conflict) ∧
      (ns ≤ 0 → ne ≤ 0 → seeDispatch ns ne = SeeMode.allLines) ∧
      (ns ≤ 0 → 0 < ne → seeDispatch ns ne = SeeMode.lastN) ∧
      (0 < ns → ne ≤ 0 → seeDispatch ns ne = SeeMode.firstN) := by
  refine ⟨?_, ?_, ?_, ?_⟩
  · intro h
    simp only [seeDispatch, if_neg h]
    split_ifs <;> simp
  · intro h1 h2
    have hc : ¬(0 < ns ∧ 0 < ne) := by omega
    simp only [seeDispatch, if_neg hc, if_neg (by omega : ¬(0 < ns)),
      if_neg (by omega : ¬(0 < ne))]
  · intro h1 h2
    have hc : ¬(0 < ns ∧ 0 < ne) := by omega
    simp only [seeDispatch, if_neg hc, if_neg (by omega : ¬(0 < ns)), if_pos h2]
  · intro h1 h2
    have hc : ¬(0 < ns ∧ 0 < ne) := by omega
    simp only [seeDispatch, if_neg hc, if_pos h1]

/-- Witness for C10 at ns = -3, ne = 5 and at ns = ne = 0. -/
theorem seeDispatch_nonpositive_witness :
    seeDispatch (-3) 5 ≠ SeeMode.conflict ∧
      seeDispatch 0 0 = SeeMode.allLines ∧
      seeDispatch (-3) 5 = SeeMode.lastN ∧
      seeDispatch 4 0 = SeeMode.firstN :=
  ⟨(seeDispatch_nonpositive (-3) 5).1 (by decide),
    (seeDispatch_nonpositive 0 0).2.1 (by decide) (by decide),
    (seeDispatch_nonpositive (-3) 5).2.2.1 (by decide) (by decide),
    (seeDispatch_nonpositive 4 0).2.2.2 (by decide) (by decide)⟩

end See
